import Mathlib

/-!
# Verification of the chess AI core (`ChessAiManager.ts`)

Shallow embedding of `src/managers/ChessAiManager/ChessAiManager.ts`:
the piece-square table builder, the incremental board evaluator, the
minimax search with alpha-beta pruning, and the session operations
(`init`, `updateBoardWithPlayerMove`, `calcAiMove`).

JavaScript `number` values reaching comparisons in the search are either
integers or the two infinities used as initial bounds, so they are
modelled by `EInt := WithBot (WithTop Int)` (`⊥` = `-Infinity`,
`⊤` = `+Infinity`).  The rules engine (`chess.js`) is external to the
repository; the game tree it induces (legal moves per position, in
enumeration order, each paired with the resulting position) is modelled
by the inductive `GameTree`, and its mutable board by the stack of
currently applied moves (`List Move`), which `move` pushes and `undo`
pops.
-/

/-- Extended integers: the values taken by the JavaScript numbers in the
search (`-Infinity`, finite integer sums, `+Infinity`). -/
abbrev EInt := WithBot (WithTop Int)

/-- Embeds a finite integer score into `EInt`. -/
def toE (z : Int) : EInt := ((z : WithTop Int) : EInt)

/-- chess.js piece types (`p`, `n`, `b`, `r`, `q`, `k`). -/
inductive PieceType where
  | p | n | b | r | q | k
deriving DecidableEq, Repr, Fintype

/-- chess.js `PieceColor` (`"w" | "b"`). -/
inductive PieceColor where
  | w | b
deriving DecidableEq, Repr

/-- `PieceChessPosition` (`objects/Pieces/Piece/types`): a board square as a
row/column pair, each in `[0, 7]`. -/
structure PieceChessPosition where
  row : Nat
  column : Nat
deriving DecidableEq, Repr

/-- `PieceSquareTables` (`constants/types`): one 8×8 grid of positional
weights per piece type. -/
structure PieceSquareTables where
  p : List (List Int)
  n : List (List Int)
  b : List (List Int)
  r : List (List Int)
  q : List (List Int)
  k : List (List Int)
deriving DecidableEq, Repr

/-- Field lookup `tables[piece]`. -/
def PieceSquareTables.get (t : PieceSquareTables) : PieceType → List (List Int)
  | .p => t.p
  | .n => t.n
  | .b => t.b
  | .r => t.r
  | .q => t.q
  | .k => t.k

/-- A chess.js `Move` record, restricted to the fields the core reads.
`from`/`to` are Lean keywords, so the fields are named `fromPos`/`toPos`;
they hold the row/column squares directly, i.e. `getMatrixPosition`
(`utils/chess`, not part of this repository's source) is modelled from the
spec as the identity translation onto the spec's `Square = (row, column)`
data model (the spec places coordinate translation out of scope).
`promotion` is the piece the move actually promotes to; the evaluator
never reads it. -/
structure Move where
  fromPos : PieceChessPosition
  toPos : PieceChessPosition
  piece : PieceType
  captured : Option PieceType
  color : PieceColor
  flags : String
  promotion : Option PieceType
deriving DecidableEq, Repr

/-- Modelled from the spec: `PIECE_WEIGHTS` (`constants/chess-weights`) is
not part of this repository's source; the spec only requires a fixed
material weight per piece type. -/
def PIECE_WEIGHTS : PieceType → Int
  | .p => 100
  | .n => 300
  | .b => 320
  | .r => 500
  | .q => 900
  | .k => 20000

/-- An 8-entry row holding the constant `v`. -/
def constRow (v : Int) : List Int := List.replicate 8 v

/-- An 8×8 grid of zeroes. -/
def zeroGrid : List (List Int) := List.replicate 8 (constRow 0)

/-- Modelled from the spec: `PIECE_SQUARE_TABLES` (`constants/chess-weights`)
is not part of this repository's source.  The spec requires one 8×8 integer
grid per piece type, authored from the first player's point of view, i.e.
row-asymmetric.  The pawn grid is modelled with row `i` holding the constant
`i` (asymmetric under vertical flip, as any real pawn table is); the other
grids are modelled as zero. -/
def PIECE_SQUARE_TABLES : PieceSquareTables where
  p := [constRow 0, constRow 1, constRow 2, constRow 3,
        constRow 4, constRow 5, constRow 6, constRow 7]
  n := zeroGrid
  b := zeroGrid
  r := zeroGrid
  q := zeroGrid
  k := zeroGrid

/-- The mutable state of a `ChessAiManager` instance, minus the embedded
chess.js engine (modelled separately by `GameTree` and a move stack). -/
structure ChessAiManager where
  color : PieceColor
  aiSquareTables : PieceSquareTables
  opponentSquareTables : PieceSquareTables
  prevSum : Int
deriving DecidableEq, Repr

/-- `reverseSquareTablesForBlack`: deep-copies `PIECE_SQUARE_TABLES` and
reverses the row order of every piece's grid (`value.reverse()` on each
`Object.values` entry).  The deep copy is the identity in this pure
embedding, so the shared constant is untouched by construction. -/
def reverseSquareTablesForBlack : PieceSquareTables where
  p := PIECE_SQUARE_TABLES.p.reverse
  n := PIECE_SQUARE_TABLES.n.reverse
  b := PIECE_SQUARE_TABLES.b.reverse
  r := PIECE_SQUARE_TABLES.r.reverse
  q := PIECE_SQUARE_TABLES.q.reverse
  k := PIECE_SQUARE_TABLES.k.reverse

/-- `blackStartInit`: ai tables reversed, opponent tables = the base clone. -/
def blackStartInit (st : ChessAiManager) : ChessAiManager :=
  { st with
    aiSquareTables := reverseSquareTablesForBlack
    opponentSquareTables := PIECE_SQUARE_TABLES }

/-- `whiteStartInit`: ai tables = the base clone, opponent tables reversed. -/
def whiteStartInit (st : ChessAiManager) : ChessAiManager :=
  { st with
    aiSquareTables := PIECE_SQUARE_TABLES
    opponentSquareTables := reverseSquareTablesForBlack }

/-- `getOpponentValueFromSquareTable`. -/
def getOpponentValueFromSquareTable (st : ChessAiManager) (piece : PieceType)
    (chessPosition : PieceChessPosition) : Int :=
  ((st.opponentSquareTables.get piece).getD chessPosition.row []).getD
    chessPosition.column 0

/-- `getAiValueFromSquareTable`. -/
def getAiValueFromSquareTable (st : ChessAiManager) (piece : PieceType)
    (chessPosition : PieceChessPosition) : Int :=
  ((st.aiSquareTables.get piece).getD chessPosition.row []).getD
    chessPosition.column 0

/-- `isBlack`. -/
def ChessAiManager.isBlack (st : ChessAiManager) : Bool := st.color = PieceColor.b

/-- `isWhite`. -/
def ChessAiManager.isWhite (st : ChessAiManager) : Bool := st.color = PieceColor.w

/-- `init(color, fen)`: assigns the color, loads the engine with `fen`
(engine state is modelled outside this structure), and rebuilds the
perspective tables according to the *assigned* color.  Note: `prevSum`
is not touched. -/
def init (st : ChessAiManager) (color : PieceColor) (_fen : String) :
    ChessAiManager :=
  let st := { st with color := color }
  if st.isBlack then blackStartInit st
  else whiteStartInit st

/-- `evaluateBoard(move, prevSum)`: incremental evaluation delta for one
move, from the engine's own point of view.  A direct transcription of the
source: the capture adjustment (first `if`) and the
promotion-or-regular-move adjustment (second `if`/`else`) are applied in
sequence to `newSum`. -/
def evaluateBoard (st : ChessAiManager) (move : Move) (prevSum : Int) : Int :=
  let fromRow := move.fromPos.row
  let fromColumn := move.fromPos.column
  let toRow := move.toPos.row
  let toColumn := move.toPos.column
  let newSum := prevSum
  let newSum :=
    match move.captured with
    | some captured =>
        -- ai captured a piece
        if move.color = st.color then
          newSum + (PIECE_WEIGHTS captured +
            getAiValueFromSquareTable st captured ⟨toRow, toColumn⟩)
        -- player captured a piece
        else
          newSum - (PIECE_WEIGHTS captured +
            getOpponentValueFromSquareTable st captured ⟨toRow, toColumn⟩)
    | none => newSum
  let newSum :=
    if move.flags = "p" then
      let promoted := PieceType.q
      -- ai piece was promoted
      if move.color = st.color then
        newSum
          - (PIECE_WEIGHTS move.piece +
              getAiValueFromSquareTable st move.piece ⟨fromRow, fromColumn⟩)
          + (PIECE_WEIGHTS promoted +
              getAiValueFromSquareTable st promoted ⟨fromRow, fromColumn⟩)
      -- player piece was promoted
      else
        newSum
          + (PIECE_WEIGHTS move.piece +
              getOpponentValueFromSquareTable st move.piece ⟨fromRow, fromColumn⟩)
          - (PIECE_WEIGHTS promoted +
              getOpponentValueFromSquareTable st move.piece ⟨toRow, toColumn⟩)
    -- regular move
    else
      -- if ai moves
      if move.color = st.color then
        newSum
          - getAiValueFromSquareTable st move.piece ⟨fromRow, fromColumn⟩
          + getAiValueFromSquareTable st move.piece ⟨toRow, toColumn⟩
      -- if player moves
      else
        newSum
          + getAiValueFromSquareTable st move.piece ⟨fromRow, fromColumn⟩
          - getAiValueFromSquareTable st move.piece ⟨toRow, toColumn⟩
  newSum

/-- `updateBoardWithPlayerMove(move)`: records a real opponent move in the
running score (the engine-board mutation is modelled outside this
structure). -/
def updateBoardWithPlayerMove (st : ChessAiManager) (move : Move) :
    ChessAiManager :=
  { st with prevSum := evaluateBoard st move st.prevSum }

/-- The game tree induced by the rules engine at the current position:
for each legal move, in the engine's enumeration order, the fully
populated `Move` record returned by `chessEngine.move` together with the
tree of the resulting position. -/
inductive GameTree where
  | node : List (Move × GameTree) → GameTree

/-- The `for (const moveNotation of moves)` loop body of `minimax`,
including the `beta <= alpha` pruning break.  `recurse` is the recursive
`minimax` call one ply shallower; the accumulators `maxVal`, `bestMove`,
`minVal`, `alpha`, `beta` mirror the source's local variables. -/
def abLoop (st : ChessAiManager)
    (recurse : GameTree → Int → Bool → EInt → EInt → Option Move × EInt)
    (isMax : Bool) (sum : Int) :
    List (Move × GameTree) → EInt → Option Move → EInt → EInt → EInt →
      Option Move × EInt
  | [], maxVal, bestMove, minVal, _alpha, _beta =>
      (bestMove, if isMax then maxVal else minVal)
  | (mv, sub) :: rest, maxVal, bestMove, minVal, alpha, beta =>
      let newSum := evaluateBoard st mv sum
      let childValue := (recurse sub newSum (!isMax) alpha beta).2
      if isMax then
        let maxVal' := if childValue > maxVal then childValue else maxVal
        let bestMove' := if childValue > maxVal then some mv else bestMove
        let alpha' := max alpha childValue
        if beta ≤ alpha' then (bestMove', maxVal')
        else abLoop st recurse isMax sum rest maxVal' bestMove' minVal alpha' beta
      else
        let minVal' := if childValue < minVal then childValue else minVal
        let bestMove' := if childValue < minVal then some mv else bestMove
        let beta' := min childValue beta
        if beta' ≤ alpha then (bestMove', minVal')
        else abLoop st recurse isMax sum rest maxVal bestMove' minVal' alpha beta'

/-- `minimax(depth, sum, isMaximizingPlayer, alpha, beta)`: depth-bounded
minimax with alpha-beta pruning over the game tree of the current
position.  At `depth === 0` or with no legal moves it returns
`[null, sum]`; otherwise it runs the move loop starting from
`maxVal = -Infinity`, `bestMove = undefined`, `minVal = +Infinity`. -/
def minimax (st : ChessAiManager) :
    Nat → GameTree → Int → Bool → EInt → EInt → Option Move × EInt
  | 0, _t, sum, _isMax, _alpha, _beta => (none, toE sum)
  | _d + 1, .node [], sum, _isMax, _alpha, _beta => (none, toE sum)
  | d + 1, .node (c :: cs), sum, isMax, alpha, beta =>
      abLoop st (minimax st d) isMax sum (c :: cs) ⊥ none ⊤ alpha beta

/-- Modelled from the spec: the loop of plain minimax without pruning
("plain minimax (no pruning) over the same tree", §8), for the
alpha-beta-equivalence comparison.  Identical to `abLoop` with the
`alpha`/`beta` bookkeeping and the pruning break removed. -/
def plainLoop (st : ChessAiManager)
    (recurse : GameTree → Int → Bool → Option Move × EInt)
    (isMax : Bool) (sum : Int) :
    List (Move × GameTree) → EInt → Option Move → EInt → Option Move × EInt
  | [], maxVal, bestMove, minVal =>
      (bestMove, if isMax then maxVal else minVal)
  | (mv, sub) :: rest, maxVal, bestMove, minVal =>
      let childValue := (recurse sub (evaluateBoard st mv sum) (!isMax)).2
      if isMax then
        plainLoop st recurse isMax sum rest
          (if childValue > maxVal then childValue else maxVal)
          (if childValue > maxVal then some mv else bestMove)
          minVal
      else
        plainLoop st recurse isMax sum rest
          maxVal
          (if childValue < minVal then some mv else bestMove)
          (if childValue < minVal then childValue else minVal)

/-- Modelled from the spec: plain minimax without pruning over the same
game tree, same leaf rule and same strict-improvement tie-break as
`minimax`. -/
def plainMinimax (st : ChessAiManager) :
    Nat → GameTree → Int → Bool → Option Move × EInt
  | 0, _t, sum, _isMax => (none, toE sum)
  | _d + 1, .node [], sum, _isMax => (none, toE sum)
  | d + 1, .node (c :: cs), sum, isMax =>
      plainLoop st (plainMinimax st d) isMax sum (c :: cs) ⊥ none ⊤

/-- The `minimax` move loop with the rules engine's mutable board made
explicit as the stack of currently applied moves: `chessEngine.move`
pushes the move before the recursive call, `chessEngine.undo()` pops the
most recent move immediately after it and before the pruning check, in
source order. -/
def abLoopS (st : ChessAiManager)
    (recurse : GameTree → Int → Bool → EInt → EInt → List Move →
      (Option Move × EInt) × List Move)
    (isMax : Bool) (sum : Int) :
    List (Move × GameTree) → EInt → Option Move → EInt → EInt → EInt →
      List Move → (Option Move × EInt) × List Move
  | [], maxVal, bestMove, minVal, _alpha, _beta, hist =>
      ((bestMove, if isMax then maxVal else minVal), hist)
  | (mv, sub) :: rest, maxVal, bestMove, minVal, alpha, beta, hist =>
      let hist1 := mv :: hist
      let r := recurse sub (evaluateBoard st mv sum) (!isMax) alpha beta hist1
      let childValue := r.1.2
      let hist2 := r.2.tail
      if isMax then
        let maxVal' := if childValue > maxVal then childValue else maxVal
        let bestMove' := if childValue > maxVal then some mv else bestMove
        let alpha' := max alpha childValue
        if beta ≤ alpha' then ((bestMove', maxVal'), hist2)
        else abLoopS st recurse isMax sum rest maxVal' bestMove' minVal alpha' beta hist2
      else
        let minVal' := if childValue < minVal then childValue else minVal
        let bestMove' := if childValue < minVal then some mv else bestMove
        let beta' := min childValue beta
        if beta' ≤ alpha then ((bestMove', minVal'), hist2)
        else abLoopS st recurse isMax sum rest maxVal bestMove' minVal' alpha beta' hist2

/-- `minimax` with the rules engine's board state (stack of applied
moves) threaded explicitly, for the apply/undo frame property. -/
def minimaxS (st : ChessAiManager) :
    Nat → GameTree → Int → Bool → EInt → EInt → List Move →
      (Option Move × EInt) × List Move
  | 0, _t, sum, _isMax, _alpha, _beta, hist => ((none, toE sum), hist)
  | _d + 1, .node [], sum, _isMax, _alpha, _beta, hist => ((none, toE sum), hist)
  | d + 1, .node (c :: cs), sum, isMax, alpha, beta, hist =>
      abLoopS st (minimaxS st d) isMax sum (c :: cs) ⊥ none ⊤ alpha beta hist

/-- Reads a finite `EInt` back as the `Int` stored into `prevSum`
(the search always produces a finite value when storing; the default is
never reached there). -/
def EInt.toIntD (v : EInt) : Int := (v.unbot' 0).untop' 0

/-- `calcAiMove()`: top-level search at depth 3 with full-width bounds,
stores the returned value as the new running score and returns the chosen
move (`chessEngine.move(move)` is a board effect outside this structure;
with `move = null` chess.js leaves the board unchanged). -/
def calcAiMove (st : ChessAiManager) (t : GameTree) :
    Option Move × ChessAiManager :=
  let r := minimax st 3 t st.prevSum true ⊥ ⊤
  (r.1, { st with prevSum := r.2.toIntD })

/-- A concrete session state before initialization (used as the starting
point for the concrete scenarios below). -/
def st0 : ChessAiManager :=
  { color := PieceColor.w, aiSquareTables := PIECE_SQUARE_TABLES,
    opponentSquareTables := PIECE_SQUARE_TABLES, prevSum := 0 }

/-- A session initialized to play the second player (Black). -/
def stBlack : ChessAiManager := init st0 PieceColor.b ""

/-- A session initialized to play the first player (White). -/
def stWhite : ChessAiManager := init st0 PieceColor.w ""

/-- A quiet White double pawn push `a2-a4` (no capture, no promotion). -/
def mvQuiet : Move :=
  { fromPos := ⟨6, 0⟩, toPos := ⟨4, 0⟩, piece := PieceType.p,
    captured := none, color := PieceColor.w, flags := "b", promotion := none }

/-- A Black pawn capturing a rook (capture flag, no promotion flag). -/
def mvCapture : Move :=
  { fromPos := ⟨1, 0⟩, toPos := ⟨0, 1⟩, piece := PieceType.p,
    captured := some PieceType.r, color := PieceColor.b, flags := "c",
    promotion := none }

/-- A Black non-capture promotion that actually promotes to a rook
(an underpromotion: `promotion = r`). -/
def mvPromo : Move :=
  { fromPos := ⟨1, 0⟩, toPos := ⟨0, 0⟩, piece := PieceType.p,
    captured := none, color := PieceColor.b, flags := "p",
    promotion := some PieceType.r }

/-- A quiet White knight move (all of its table entries are zero in the
modelled tables, so its incremental delta is 0). -/
def mvN : Move :=
  { fromPos := ⟨7, 1⟩, toPos := ⟨5, 2⟩, piece := PieceType.n,
    captured := none, color := PieceColor.w, flags := "n", promotion := none }

/-- A position with no legal moves. -/
def tLeaf : GameTree := GameTree.node []

/-- A small concrete game tree with two root moves. -/
def tW : GameTree :=
  GameTree.node [(mvN, GameTree.node [(mvCapture, tLeaf)]), (mvQuiet, tLeaf)]

/-! ## Basic facts about `EInt` -/

theorem bot_lt_toE (z : Int) : (⊥ : EInt) < toE z := WithBot.bot_lt_coe _

theorem toE_lt_top (z : Int) : toE z < (⊤ : EInt) := by
  rw [← WithBot.coe_top]
  exact WithBot.coe_lt_coe.mpr (WithTop.coe_lt_top z)

theorem EInt_bot_lt_top : (⊥ : EInt) < ⊤ := lt_trans (bot_lt_toE 0) (toE_lt_top 0)

theorem if_gt_eq_max (M v : EInt) : (if v > M then v else M) = max M v := by
  rcases le_or_lt v M with h | h
  · rw [if_neg (not_lt.mpr h), max_eq_left h]
  · rw [if_pos h, max_eq_right h.le]

theorem if_lt_eq_min (m v : EInt) : (if v < m then v else m) = min m v := by
  rcases le_or_lt m v with h | h
  · rw [if_neg (not_lt.mpr h), min_eq_left h]
  · rw [if_pos h, min_eq_right h.le]

/-! ## C1: perspective tables built by `init` -/

/-- C1 (counterexample): initializing with the first-player color does
*not* leave both table sets equal to the base tables — `whiteStartInit`
stores the row-reversed tables as the opponent tables. -/
theorem init_white_counterexample :
    ¬ ((init st0 PieceColor.w "").aiSquareTables = PIECE_SQUARE_TABLES ∧
       (init st0 PieceColor.w "").opponentSquareTables = PIECE_SQUARE_TABLES) := by
  decide

/-- C1 (amended): after `init` with the White color the ai tables are the
base tables and the opponent tables are the row-reversed tables; after
`init` with the Black color the assignment is exactly swapped (the ai
tables are reversed, the opponent tables are the base tables). -/
theorem init_perspective_tables (st : ChessAiManager) (fen : String) :
    (init st PieceColor.w fen).aiSquareTables = PIECE_SQUARE_TABLES ∧
    (init st PieceColor.w fen).opponentSquareTables = reverseSquareTablesForBlack ∧
    (init st PieceColor.b fen).aiSquareTables = reverseSquareTablesForBlack ∧
    (init st PieceColor.b fen).opponentSquareTables = PIECE_SQUARE_TABLES :=
  ⟨rfl, rfl, rfl, rfl⟩

/-! ## C4: `init` and the running score -/

/-- C4 (counterexample): a session that has recorded a real move carries a
non-zero running score, and re-initialization does *not* reset it to 0. -/
theorem init_prevSum_counterexample :
    (init (updateBoardWithPlayerMove stBlack mvQuiet) PieceColor.b "").prevSum ≠ 0 := by
  decide

/-- C4 (amended): `init` assigns the color and rebuilds the perspective
tables but leaves the running score unchanged, whatever it was; the
running score is 0 only from construction of the session object. -/
theorem init_preserves_prevSum (st : ChessAiManager) (c : PieceColor)
    (fen : String) : (init st c fen).prevSum = st.prevSum := by
  cases c <;> rfl

/-! ## C10: `calcAiMove` with no legal moves -/

/-- C10: when the current position has no legal moves, the depth-3 search
returns `[null, sum]` immediately, so `calcAiMove` returns no move and
stores the unchanged running score. -/
theorem calcAiMove_no_moves (st : ChessAiManager) :
    (calcAiMove st (GameTree.node [])).1 = none ∧
    ((calcAiMove st (GameTree.node [])).2).prevSum = st.prevSum :=
  ⟨rfl, rfl⟩

/-! ## C7: the table builder reverses row order -/

/-- C7: `reverseSquareTablesForBlack` exchanges row `i` with row `7 - i`
of every piece's grid and keeps each row (hence the column order)
unchanged; the base constant is untouched (the builder is a pure function
of it in this embedding, operating on a deep copy in the source). -/
theorem reverseSquareTablesForBlack_rows :
    ∀ pt : PieceType, ∀ i : Nat, i < 8 →
      (reverseSquareTablesForBlack.get pt).length = 8 ∧
      (reverseSquareTablesForBlack.get pt).getD i [] =
        (PIECE_SQUARE_TABLES.get pt).getD (7 - i) [] := by
  decide

/-- Witness for C7 at the pawn grid and row 1. -/
theorem reverseSquareTablesForBlack_rows_witness :
    1 < 8 ∧
    ((reverseSquareTablesForBlack.get PieceType.p).length = 8 ∧
     (reverseSquareTablesForBlack.get PieceType.p).getD 1 [] =
       (PIECE_SQUARE_TABLES.get PieceType.p).getD 6 []) :=
  ⟨by decide, reverseSquareTablesForBlack_rows PieceType.p 1 (by decide)⟩

/-! ## C2: quiet opponent moves -/

/-- C2 (counterexample): for a quiet opponent move the evaluator does
*not* add the positional difference taken from the opponent table — in a
Black-initialized session (where the two tables differ) the result
disagrees with the opponent-table formula. -/
theorem evaluateBoard_quiet_opponent_counterexample :
    evaluateBoard stBlack mvQuiet 0 ≠
      0 + getOpponentValueFromSquareTable stBlack mvQuiet.piece mvQuiet.fromPos
        - getOpponentValueFromSquareTable stBlack mvQuiet.piece mvQuiet.toPos := by
  decide

/-- C2 (amended): for a quiet move made by the opponent the evaluator
returns the previous score plus the moving piece's value at the
from-square minus its value at the to-square, with *both* lookups made in
the engine's own (ai) perspective table. -/
theorem evaluateBoard_quiet_opponent (st : ChessAiManager) (m : Move) (s : Int)
    (hcap : m.captured = none) (hfl : m.flags ≠ "p")
    (hcol : m.color ≠ st.color) :
    evaluateBoard st m s =
      s + getAiValueFromSquareTable st m.piece m.fromPos
        - getAiValueFromSquareTable st m.piece m.toPos := by
  simp only [evaluateBoard, hcap, if_neg hfl, if_neg hcol]

/-- Witness for C2 at the concrete quiet opponent move `mvQuiet`. -/
theorem evaluateBoard_quiet_opponent_witness :
    mvQuiet.captured = none ∧ mvQuiet.flags ≠ "p" ∧
    mvQuiet.color ≠ stBlack.color ∧
    evaluateBoard stBlack mvQuiet 0 =
      0 + getAiValueFromSquareTable stBlack mvQuiet.piece mvQuiet.fromPos
        - getAiValueFromSquareTable stBlack mvQuiet.piece mvQuiet.toPos :=
  ⟨rfl, by decide, by decide,
    evaluateBoard_quiet_opponent stBlack mvQuiet 0 rfl (by decide) (by decide)⟩

/-! ## C3: branch exclusivity -/

/-- C3 (counterexample): a capturing move does *not* receive only the
capture adjustment — for the concrete capture `mvCapture` made by the
engine's own side the evaluator's result differs from the capture-only
value `s + (weight + aiTable lookup at the destination)`. -/
theorem evaluateBoard_capture_counterexample :
    evaluateBoard stBlack mvCapture 0 ≠
      0 + (PIECE_WEIGHTS PieceType.r +
        getAiValueFromSquareTable stBlack PieceType.r mvCapture.toPos) := by
  decide

/-- C3 (amended): the promotion and regular-move branches are mutually
exclusive, but the capture branch is not exclusive with them: a capturing
move without the (exact) promotion flag receives the capture adjustment
*plus* the quiet-move positional adjustment for the moving piece. -/
theorem evaluateBoard_capture_adds_positional (st : ChessAiManager)
    (m : Move) (s : Int) (c : PieceType)
    (hcap : m.captured = some c) (hfl : m.flags ≠ "p") :
    evaluateBoard st m s =
      s + (if m.color = st.color then
            PIECE_WEIGHTS c + getAiValueFromSquareTable st c m.toPos
          else
            -(PIECE_WEIGHTS c + getOpponentValueFromSquareTable st c m.toPos))
        + (if m.color = st.color then
            getAiValueFromSquareTable st m.piece m.toPos
              - getAiValueFromSquareTable st m.piece m.fromPos
          else
            getAiValueFromSquareTable st m.piece m.fromPos
              - getAiValueFromSquareTable st m.piece m.toPos) := by
  by_cases hcol : m.color = st.color
  · simp only [evaluateBoard, hcap, if_pos hcol, if_neg hfl]
    ring
  · simp only [evaluateBoard, hcap, if_neg hcol, if_neg hfl]
    ring

/-- Witness for C3's amended statement at the concrete capture `mvCapture`. -/
theorem evaluateBoard_capture_adds_positional_witness :
    mvCapture.captured = some PieceType.r ∧ mvCapture.flags ≠ "p" ∧
    evaluateBoard stBlack mvCapture 0 =
      0 + (if mvCapture.color = stBlack.color then
            PIECE_WEIGHTS PieceType.r +
              getAiValueFromSquareTable stBlack PieceType.r mvCapture.toPos
          else
            -(PIECE_WEIGHTS PieceType.r +
              getOpponentValueFromSquareTable stBlack PieceType.r mvCapture.toPos))
        + (if mvCapture.color = stBlack.color then
            getAiValueFromSquareTable stBlack mvCapture.piece mvCapture.toPos
              - getAiValueFromSquareTable stBlack mvCapture.piece mvCapture.fromPos
          else
            getAiValueFromSquareTable stBlack mvCapture.piece mvCapture.fromPos
              - getAiValueFromSquareTable stBlack mvCapture.piece mvCapture.toPos) :=
  ⟨rfl, by decide,
    evaluateBoard_capture_adds_positional stBlack mvCapture 0 PieceType.r rfl
      (by decide)⟩

/-! ## C9: promotions are scored as queen promotions -/

/-- C9: for a promotion-flagged move the evaluator never reads the
`promotion` field (first conjunct), and scores the replacement piece with
the queen's weights: on the engine's own promotion the queen's material
and positional weights at the origin square, on an opponent promotion the
queen's material weight together with the pawn-table entry at the
destination (the source's documented asymmetry).  Underpromotions are
therefore scored exactly as a promotion to queen. -/
theorem evaluateBoard_promotion_queen (st : ChessAiManager) (m : Move)
    (s : Int) (hfl : m.flags = "p") (hcap : m.captured = none) :
    (∀ pr : Option PieceType,
      evaluateBoard st { m with promotion := pr } s = evaluateBoard st m s) ∧
    evaluateBoard st m s =
      (if m.color = st.color then
        s - (PIECE_WEIGHTS m.piece +
              getAiValueFromSquareTable st m.piece m.fromPos)
          + (PIECE_WEIGHTS PieceType.q +
              getAiValueFromSquareTable st PieceType.q m.fromPos)
      else
        s + (PIECE_WEIGHTS m.piece +
              getOpponentValueFromSquareTable st m.piece m.fromPos)
          - (PIECE_WEIGHTS PieceType.q +
              getOpponentValueFromSquareTable st m.piece m.toPos)) := by
  refine ⟨fun pr => rfl, ?_⟩
  by_cases hcol : m.color = st.color
  · simp only [evaluateBoard, hcap, if_pos hfl, if_pos hcol]
  · simp only [evaluateBoard, hcap, if_pos hfl, if_neg hcol]

/-- Witness for C9 at the concrete underpromotion `mvPromo`
(which promotes to a rook). -/
theorem evaluateBoard_promotion_queen_witness :
    mvPromo.flags = "p" ∧ mvPromo.captured = none ∧
    ((∀ pr : Option PieceType,
       evaluateBoard stBlack { mvPromo with promotion := pr } 0 =
         evaluateBoard stBlack mvPromo 0) ∧
     evaluateBoard stBlack mvPromo 0 =
       (if mvPromo.color = stBlack.color then
         0 - (PIECE_WEIGHTS mvPromo.piece +
               getAiValueFromSquareTable stBlack mvPromo.piece mvPromo.fromPos)
           + (PIECE_WEIGHTS PieceType.q +
               getAiValueFromSquareTable stBlack PieceType.q mvPromo.fromPos)
       else
         0 + (PIECE_WEIGHTS mvPromo.piece +
               getOpponentValueFromSquareTable stBlack mvPromo.piece mvPromo.fromPos)
           - (PIECE_WEIGHTS PieceType.q +
               getOpponentValueFromSquareTable stBlack mvPromo.piece mvPromo.toPos))) :=
  ⟨rfl, rfl, evaluateBoard_promotion_queen stBlack mvPromo 0 rfl rfl⟩

/-! ## C6: the search restores the rules engine's position -/

/-- Helper for C6: the move loop returns the move stack it was entered
with, provided the recursive call does so — each iteration pushes the
candidate move, recurses, and pops it again *before* the pruning check. -/
theorem abLoopS_preserves_hist (st : ChessAiManager)
    (recurse : GameTree → Int → Bool → EInt → EInt → List Move →
      (Option Move × EInt) × List Move)
    (isMax : Bool) (sum : Int)
    (H : ∀ t ns im a b h, (recurse t ns im a b h).2 = h) :
    ∀ cs maxVal bm minVal alpha beta hist,
      (abLoopS st recurse isMax sum cs maxVal bm minVal alpha beta hist).2 =
        hist := by
  intro cs
  induction cs with
  | nil => intro maxVal bm minVal alpha beta hist; rfl
  | cons c rest ih =>
    obtain ⟨mv, sub⟩ := c
    intro maxVal bm minVal alpha beta hist
    cases isMax
    · simp only [abLoopS, H, List.tail_cons, Bool.not_false, Bool.false_eq_true,
        if_false]
      split
      · rfl
      · exact ih _ _ _ _ _ _
    · simp only [abLoopS, H, List.tail_cons, Bool.not_true, eq_self_iff_true,
        if_true]
      split
      · rfl
      · exact ih _ _ _ _ _ _

/-- C6: every call to the search leaves the rules engine's position
(the stack of currently applied moves) exactly as it found it: every
applied move is undone before the next sibling is tried, including when
the loop exits early through the `beta <= alpha` pruning break. -/
theorem minimaxS_preserves_position (st : ChessAiManager) :
    ∀ (d : Nat) (t : GameTree) (sum : Int) (isMax : Bool) (alpha beta : EInt)
      (hist : List Move),
      (minimaxS st d t sum isMax alpha beta hist).2 = hist := by
  intro d
  induction d with
  | zero => intro t sum isMax alpha beta hist; rfl
  | succ d ih =>
    intro t sum isMax alpha beta hist
    obtain ⟨cs⟩ := t
    cases cs with
    | nil => rfl
    | cons c rest =>
      exact abLoopS_preserves_hist st (minimaxS st d) isMax sum
        (fun t ns im a b h => ih t ns im a b h) (c :: rest) ⊥ none ⊤ alpha beta
        hist

/-! ## C8: tie-break keeps the earlier move -/

/-- C8: at a search node, a candidate whose backed-up value merely equals
the current best does not replace the stored best move (the first such
move in enumeration order is kept), while a strict improvement (strictly
greater at a maximizing node, strictly lesser at a minimizing node) does
replace it — stated on `minimax`'s move loop processing its last
candidate. -/
theorem minimax_tie_break (st : ChessAiManager) (d : Nat) (sum : Int)
    (mv : Move) (sub : GameTree) (bm : Option Move) (M m alpha beta : EInt) :
    ((minimax st d sub (evaluateBoard st mv sum) false alpha beta).2 = M →
      (abLoop st (minimax st d) true sum [(mv, sub)] M bm m alpha beta).1 = bm) ∧
    (M < (minimax st d sub (evaluateBoard st mv sum) false alpha beta).2 →
      (abLoop st (minimax st d) true sum [(mv, sub)] M bm m alpha beta).1 =
        some mv) ∧
    ((minimax st d sub (evaluateBoard st mv sum) true alpha beta).2 = m →
      (abLoop st (minimax st d) false sum [(mv, sub)] M bm m alpha beta).1 = bm) ∧
    ((minimax st d sub (evaluateBoard st mv sum) true alpha beta).2 < m →
      (abLoop st (minimax st d) false sum [(mv, sub)] M bm m alpha beta).1 =
        some mv) := by
  refine ⟨fun h => ?_, fun h => ?_, fun h => ?_, fun h => ?_⟩
  · simp only [abLoop, Bool.not_true, eq_self_iff_true, if_true, h,
      lt_self_iff_false, if_false, ite_self]
  · simp only [abLoop, Bool.not_true, eq_self_iff_true, if_true, h,
      if_false, ite_self]
  · simp only [abLoop, Bool.not_false, Bool.false_eq_true, if_false, h,
      lt_self_iff_false, eq_self_iff_true, if_true, ite_self]
  · simp only [abLoop, Bool.not_false, Bool.false_eq_true, if_false, h,
      eq_self_iff_true, if_true, ite_self]

/-- Witness for C8: at concrete inputs, a tying last candidate leaves the
stored best move (`mvQuiet`) in place and a strictly improving one
replaces it by the new candidate (`mvN`), at a maximizing and at a
minimizing node. -/
theorem minimax_tie_break_witness :
    (abLoop st0 (minimax st0 0) true 0 [(mvN, tLeaf)] (toE 0) (some mvQuiet) ⊤
      ⊥ ⊤).1 = some mvQuiet ∧
    (abLoop st0 (minimax st0 0) true 0 [(mvN, tLeaf)] (toE (-1)) (some mvQuiet) ⊤
      ⊥ ⊤).1 = some mvN ∧
    (abLoop st0 (minimax st0 0) false 0 [(mvN, tLeaf)] ⊥ (some mvQuiet) (toE 0)
      ⊥ ⊤).1 = some mvQuiet ∧
    (abLoop st0 (minimax st0 0) false 0 [(mvN, tLeaf)] ⊥ (some mvQuiet) (toE 1)
      ⊥ ⊤).1 = some mvN :=
  ⟨(minimax_tie_break st0 0 0 mvN tLeaf (some mvQuiet) (toE 0) ⊤ ⊥ ⊤).1
      (by decide),
   ((minimax_tie_break st0 0 0 mvN tLeaf (some mvQuiet) (toE (-1)) ⊤ ⊥ ⊤).2).1
      (by decide),
   (((minimax_tie_break st0 0 0 mvN tLeaf (some mvQuiet) ⊥ (toE 0) ⊥ ⊤).2).2).1
      (by decide),
   (((minimax_tie_break st0 0 0 mvN tLeaf (some mvQuiet) ⊥ (toE 1) ⊥ ⊤).2).2).2
      (by decide)⟩

/-! ## C5: alpha-beta pruning is value-preserving -/

/-- The plain max-node loop's value only grows from its accumulator. -/
theorem plainLoop_value_ge (st : ChessAiManager)
    (recurse : GameTree → Int → Bool → Option Move × EInt) (sum : Int) :
    ∀ cs (M : EInt) (bm : Option Move) (m : EInt),
      M ≤ (plainLoop st recurse true sum cs M bm m).2 := by
  intro cs
  induction cs with
  | nil => intro M bm m; simp [plainLoop]
  | cons c rest ih =>
    obtain ⟨mv, sub⟩ := c
    intro M bm m
    simp only [plainLoop, Bool.not_true, eq_self_iff_true, if_true]
    refine le_trans ?_ (ih _ _ _)
    split
    · exact le_of_lt (by assumption)
    · exact le_refl M

/-- The plain min-node loop's value only shrinks from its accumulator. -/
theorem plainLoop_value_le (st : ChessAiManager)
    (recurse : GameTree → Int → Bool → Option Move × EInt) (sum : Int) :
    ∀ cs (M : EInt) (bm : Option Move) (m : EInt),
      (plainLoop st recurse false sum cs M bm m).2 ≤ m := by
  intro cs
  induction cs with
  | nil => intro M bm m; simp [plainLoop]
  | cons c rest ih =>
    obtain ⟨mv, sub⟩ := c
    intro M bm m
    simp only [plainLoop, Bool.not_false, Bool.false_eq_true, if_false]
    refine le_trans (ih _ _ _) ?_
    split
    · exact le_of_lt (by assumption)
    · exact le_refl m

/-- The pruning max-node loop's value stays finite: below `⊤` whenever the
accumulator is, and above `⊥` once the accumulator is or at least one
child has been processed (children's values are finite by hypothesis). -/
theorem abLoop_bounds_max (st : ChessAiManager)
    (recurse : GameTree → Int → Bool → EInt → EInt → Option Move × EInt)
    (sum : Int)
    (H : ∀ t ns im a b, ⊥ < (recurse t ns im a b).2 ∧ (recurse t ns im a b).2 < ⊤) :
    ∀ cs (M : EInt) (bm : Option Move) (m alpha beta : EInt), M < ⊤ →
      (abLoop st recurse true sum cs M bm m alpha beta).2 < ⊤ ∧
      ((⊥ < M ∨ cs ≠ []) →
        ⊥ < (abLoop st recurse true sum cs M bm m alpha beta).2) := by
  intro cs
  induction cs with
  | nil =>
    intro M bm m alpha beta hM
    refine ⟨hM, fun hc => ?_⟩
    rcases hc with h | h
    · exact h
    · exact absurd rfl h
  | cons c rest ih =>
    obtain ⟨mv, sub⟩ := c
    intro M bm m alpha beta hM
    simp only [abLoop, Bool.not_true, eq_self_iff_true, if_true]
    obtain ⟨hvb, hvt⟩ := H sub (evaluateBoard st mv sum) false alpha beta
    have hM'top : (if (recurse sub (evaluateBoard st mv sum) false alpha beta).2 > M
        then (recurse sub (evaluateBoard st mv sum) false alpha beta).2 else M) < ⊤ := by
      split
      · exact hvt
      · exact hM
    have hM'bot : ⊥ < (if (recurse sub (evaluateBoard st mv sum) false alpha beta).2 > M
        then (recurse sub (evaluateBoard st mv sum) false alpha beta).2 else M) := by
      split
      · exact hvb
      · exact lt_of_lt_of_le hvb (le_of_not_lt (by assumption))
    split
    · exact ⟨hM'top, fun _ => hM'bot⟩
    · exact ⟨(ih _ _ _ _ _ hM'top).1, fun _ => (ih _ _ _ _ _ hM'top).2 (Or.inl hM'bot)⟩

/-- The pruning min-node loop's value stays finite, symmetrically. -/
theorem abLoop_bounds_min (st : ChessAiManager)
    (recurse : GameTree → Int → Bool → EInt → EInt → Option Move × EInt)
    (sum : Int)
    (H : ∀ t ns im a b, ⊥ < (recurse t ns im a b).2 ∧ (recurse t ns im a b).2 < ⊤) :
    ∀ cs (M : EInt) (bm : Option Move) (m alpha beta : EInt), ⊥ < m →
      ⊥ < (abLoop st recurse false sum cs M bm m alpha beta).2 ∧
      ((m < ⊤ ∨ cs ≠ []) →
        (abLoop st recurse false sum cs M bm m alpha beta).2 < ⊤) := by
  intro cs
  induction cs with
  | nil =>
    intro M bm m alpha beta hm
    refine ⟨hm, fun hc => ?_⟩
    rcases hc with h | h
    · exact h
    · exact absurd rfl h
  | cons c rest ih =>
    obtain ⟨mv, sub⟩ := c
    intro M bm m alpha beta hm
    simp only [abLoop, Bool.not_false, Bool.false_eq_true, if_false]
    obtain ⟨hvb, hvt⟩ := H sub (evaluateBoard st mv sum) true alpha beta
    have hm'bot : ⊥ < (if (recurse sub (evaluateBoard st mv sum) true alpha beta).2 < m
        then (recurse sub (evaluateBoard st mv sum) true alpha beta).2 else m) := by
      split
      · exact hvb
      · exact hm
    have hm'top : (if (recurse sub (evaluateBoard st mv sum) true alpha beta).2 < m
        then (recurse sub (evaluateBoard st mv sum) true alpha beta).2 else m) < ⊤ := by
      split
      · exact hvt
      · exact lt_of_le_of_lt (le_of_not_lt (by assumption)) hvt
    split
    · exact ⟨hm'bot, fun _ => hm'top⟩
    · exact ⟨(ih _ _ _ _ _ hm'bot).1, fun _ => (ih _ _ _ _ _ hm'bot).2 (Or.inl hm'top)⟩

/-- The pruning search's value is always finite (strictly between the two
infinities). -/
theorem minimax_bounds (st : ChessAiManager) :
    ∀ (d : Nat) (t : GameTree) (sum : Int) (isMax : Bool) (alpha beta : EInt),
      ⊥ < (minimax st d t sum isMax alpha beta).2 ∧
      (minimax st d t sum isMax alpha beta).2 < ⊤ := by
  intro d
  induction d with
  | zero => intro t sum isMax alpha beta; exact ⟨bot_lt_toE sum, toE_lt_top sum⟩
  | succ d ih =>
    intro t sum isMax alpha beta
    obtain ⟨cs⟩ := t
    cases cs with
    | nil => exact ⟨bot_lt_toE sum, toE_lt_top sum⟩
    | cons c rest =>
      cases isMax with
      | false =>
        have h := abLoop_bounds_min st (minimax st d) sum
          (fun t ns im a b => ih t ns im a b) (c :: rest) ⊥ none ⊤ alpha beta
          EInt_bot_lt_top
        exact ⟨h.1, h.2 (Or.inr (by simp))⟩
      | true =>
        have h := abLoop_bounds_max st (minimax st d) sum
          (fun t ns im a b => ih t ns im a b) (c :: rest) ⊥ none ⊤ alpha beta
          EInt_bot_lt_top
        exact ⟨h.2 (Or.inr (by simp)), h.1⟩

/-- Window soundness of the pruning max-node loop: inside the window
`(α, β)` the clamped loop value agrees with the clamped plain value.
`A` is the loop's running alpha, maintained as `max α M`. -/
theorem abLoop_clamp_max (st : ChessAiManager) (sum : Int)
    (recurseA : GameTree → Int → Bool → EInt → EInt → Option Move × EInt)
    (recurseP : GameTree → Int → Bool → Option Move × EInt)
    (H : ∀ sub ns a b, a < b →
      max a (min b (recurseA sub ns false a b).2) =
        max a (min b (recurseP sub ns false).2)) :
    ∀ cs (M pM : EInt) (bm pbm : Option Move) (m pm : EInt) (α β A : EInt),
      α < β → M < β → A = max α M →
      max α (min β M) = max α (min β pM) →
      max α (min β (abLoop st recurseA true sum cs M bm m A β).2) =
        max α (min β (plainLoop st recurseP true sum cs pM pbm pm).2) := by
  intro cs
  induction cs with
  | nil =>
    intro M pM bm pbm m pm α β A hαβ hMβ hA hI
    simpa [abLoop, plainLoop] using hI
  | cons c rest ih =>
    obtain ⟨mv, sub⟩ := c
    intro M pM bm pbm m pm α β A hαβ hMβ hA hI
    subst hA
    have hαMβ : max α M < β := max_lt hαβ hMβ
    have hCH := H sub (evaluateBoard st mv sum) (max α M) β hαMβ
    have hMeq : min β M = M := min_eq_right hMβ.le
    have hIstep :
        max α (min β (max M
            (recurseA sub (evaluateBoard st mv sum) false (max α M) β).2)) =
          max α (min β (max pM
            (recurseP sub (evaluateBoard st mv sum) false).2)) := by
      calc max α (min β (max M
              (recurseA sub (evaluateBoard st mv sum) false (max α M) β).2))
          = max α (max (min β M) (min β
              (recurseA sub (evaluateBoard st mv sum) false (max α M) β).2)) := by
            rw [min_max_distrib_left]
        _ = max (max α M) (min β
              (recurseA sub (evaluateBoard st mv sum) false (max α M) β).2) := by
            rw [hMeq, ← max_assoc]
        _ = max (max α M) (min β
              (recurseP sub (evaluateBoard st mv sum) false).2) := hCH
        _ = max (max α (min β M)) (min β
              (recurseP sub (evaluateBoard st mv sum) false).2) := by
            rw [hMeq]
        _ = max (max α (min β pM)) (min β
              (recurseP sub (evaluateBoard st mv sum) false).2) := by
            rw [hI]
        _ = max α (min β (max pM
              (recurseP sub (evaluateBoard st mv sum) false).2)) := by
            rw [max_assoc, ← min_max_distrib_left]
    simp only [abLoop, plainLoop, Bool.not_true, eq_self_iff_true, if_true,
      if_gt_eq_max, max_assoc]
    by_cases hbr : β ≤ max α (max M
        (recurseA sub (evaluateBoard st mv sum) false (max α M) β).2)
    · rw [if_pos hbr]
      have h2 : β ≤ max M
          (recurseA sub (evaluateBoard st mv sum) false (max α M) β).2 := by
        by_contra hcon
        push_neg at hcon
        exact absurd hbr (not_le.mpr (max_lt hαβ hcon))
      have hLHS : max α (min β (max M
          (recurseA sub (evaluateBoard st mv sum) false (max α M) β).2)) = β := by
        rw [min_eq_left h2, max_eq_right hαβ.le]
      have hpM' : β ≤ max pM
          (recurseP sub (evaluateBoard st mv sum) false).2 := by
        have h3 : max α (min β (max pM
            (recurseP sub (evaluateBoard st mv sum) false).2)) = β := by
          rw [← hIstep, hLHS]
        by_contra hcon
        push_neg at hcon
        rw [min_eq_right hcon.le] at h3
        exact absurd h3 (ne_of_lt (max_lt hαβ hcon))
      have hple := plainLoop_value_ge st recurseP sum rest
        (max pM (recurseP sub (evaluateBoard st mv sum) false).2)
        (if (recurseP sub (evaluateBoard st mv sum) false).2 > pM then some mv
          else pbm) pm
      have hRHS : max α (min β ((plainLoop st recurseP true sum rest
          (max pM (recurseP sub (evaluateBoard st mv sum) false).2)
          (if (recurseP sub (evaluateBoard st mv sum) false).2 > pM then some mv
            else pbm) pm).2)) = β := by
        rw [min_eq_left (le_trans hpM' hple), max_eq_right hαβ.le]
      exact hLHS.trans hRHS.symm
    · rw [if_neg hbr]
      have hM' : max M
          (recurseA sub (evaluateBoard st mv sum) false (max α M) β).2 < β :=
        lt_of_le_of_lt (le_max_right α _) (not_le.mp hbr)
      exact ih _ _ _ _ m pm α β _ hαβ hM' rfl hIstep

/-- Window soundness of the pruning min-node loop, symmetrically.
`B` is the loop's running beta, maintained as `min β m`. -/
theorem abLoop_clamp_min (st : ChessAiManager) (sum : Int)
    (recurseA : GameTree → Int → Bool → EInt → EInt → Option Move × EInt)
    (recurseP : GameTree → Int → Bool → Option Move × EInt)
    (H : ∀ sub ns a b, a < b →
      max a (min b (recurseA sub ns true a b).2) =
        max a (min b (recurseP sub ns true).2)) :
    ∀ cs (m pm : EInt) (bm pbm : Option Move) (M pM : EInt) (α β B : EInt),
      α < β → α < m → B = min β m →
      max α (min β m) = max α (min β pm) →
      max α (min β (abLoop st recurseA false sum cs M bm m α B).2) =
        max α (min β (plainLoop st recurseP false sum cs pM pbm pm).2) := by
  intro cs
  induction cs with
  | nil =>
    intro m pm bm pbm M pM α β B hαβ hαm hB hI
    simpa [abLoop, plainLoop] using hI
  | cons c rest ih =>
    obtain ⟨mv, sub⟩ := c
    intro m pm bm pbm M pM α β B hαβ hαm hB hI
    subst hB
    have hαβm : α < min β m := lt_min hαβ hαm
    have hCH := H sub (evaluateBoard st mv sum) α (min β m) hαβm
    have hmeq : max α m = m := max_eq_right hαm.le
    have hIstep :
        max α (min β (min m
            (recurseA sub (evaluateBoard st mv sum) true α (min β m)).2)) =
          max α (min β (min pm
            (recurseP sub (evaluateBoard st mv sum) true).2)) := by
      calc max α (min β (min m
              (recurseA sub (evaluateBoard st mv sum) true α (min β m)).2))
          = max α (min (min β m)
              (recurseA sub (evaluateBoard st mv sum) true α (min β m)).2) := by
            rw [min_assoc]
        _ = max α (min (min β m)
              (recurseP sub (evaluateBoard st mv sum) true).2) := hCH
        _ = max α (min β (min m
              (recurseP sub (evaluateBoard st mv sum) true).2)) := by
            rw [min_assoc]
        _ = max α (min (min β m) (min β
              (recurseP sub (evaluateBoard st mv sum) true).2)) := by
            rw [min_min_min_comm, min_self]
        _ = min (max α (min β m)) (max α (min β
              (recurseP sub (evaluateBoard st mv sum) true).2)) := by
            rw [max_min_distrib_left]
        _ = min (max α (min β pm)) (max α (min β
              (recurseP sub (evaluateBoard st mv sum) true).2)) := by
            rw [hI]
        _ = max α (min (min β pm) (min β
              (recurseP sub (evaluateBoard st mv sum) true).2)) := by
            rw [← max_min_distrib_left]
        _ = max α (min β (min pm
              (recurseP sub (evaluateBoard st mv sum) true).2)) := by
            rw [min_min_min_comm, min_self]
    have hbswap : min (recurseA sub (evaluateBoard st mv sum) true α (min β m)).2
        (min β m) = min β (min m
          (recurseA sub (evaluateBoard st mv sum) true α (min β m)).2) :=
      (min_comm _ _).trans ((min_assoc _ _ _).trans (by rw [min_comm m]))
    simp only [abLoop, plainLoop, Bool.not_false, Bool.false_eq_true, if_false,
      if_lt_eq_min]
    rw [hbswap]
    by_cases hbr : min β (min m
        (recurseA sub (evaluateBoard st mv sum) true α (min β m)).2) ≤ α
    · rw [if_pos hbr]
      have h2 : min m
          (recurseA sub (evaluateBoard st mv sum) true α (min β m)).2 ≤ α := by
        by_contra hcon
        push_neg at hcon
        exact absurd hbr (not_le.mpr (lt_min hαβ hcon))
      have hLHS : max α (min β (min m
          (recurseA sub (evaluateBoard st mv sum) true α (min β m)).2)) = α := by
        rw [min_eq_right (le_of_lt (lt_of_le_of_lt h2 hαβ)), max_eq_left h2]
      have hpm' : min pm
          (recurseP sub (evaluateBoard st mv sum) true).2 ≤ α := by
        have h3 : max α (min β (min pm
            (recurseP sub (evaluateBoard st mv sum) true).2)) = α := by
          rw [← hIstep, hLHS]
        by_contra hcon
        push_neg at hcon
        have h4 : α < min β (min pm
            (recurseP sub (evaluateBoard st mv sum) true).2) := lt_min hαβ hcon
        rw [max_eq_right h4.le] at h3
        exact absurd h3 (ne_of_gt h4)
      have hple := plainLoop_value_le st recurseP sum rest pM
        (if (recurseP sub (evaluateBoard st mv sum) true).2 < pm then some mv
          else pbm)
        (min pm (recurseP sub (evaluateBoard st mv sum) true).2)
      have hv2 : (plainLoop st recurseP false sum rest pM
          (if (recurseP sub (evaluateBoard st mv sum) true).2 < pm then some mv
            else pbm)
          (min pm (recurseP sub (evaluateBoard st mv sum) true).2)).2 ≤ α :=
        le_trans hple hpm'
      have hRHS : max α (min β ((plainLoop st recurseP false sum rest pM
          (if (recurseP sub (evaluateBoard st mv sum) true).2 < pm then some mv
            else pbm)
          (min pm (recurseP sub (evaluateBoard st mv sum) true).2)).2)) = α := by
        rw [min_eq_right (le_trans hv2 hαβ.le), max_eq_left hv2]
      exact hLHS.trans hRHS.symm
    · rw [if_neg hbr]
      have hαm' : α < min m
          (recurseA sub (evaluateBoard st mv sum) true α (min β m)).2 :=
        lt_of_lt_of_le (not_le.mp hbr) (min_le_right β _)
      exact ih _ _ _ _ M pM α β _ hαβ hαm' rfl hIstep

/-- Window soundness of the pruning search against plain minimax: for any
window `(α, β)` the two values agree after clamping into the window. -/
theorem minimax_clamp (st : ChessAiManager) :
    ∀ (d : Nat) (t : GameTree) (sum : Int) (isMax : Bool) (a b : EInt),
      a < b →
      max a (min b (minimax st d t sum isMax a b).2) =
        max a (min b (plainMinimax st d t sum isMax).2) := by
  intro d
  induction d with
  | zero => intro t sum isMax a b hab; rfl
  | succ d ih =>
    intro t sum isMax a b hab
    obtain ⟨cs⟩ := t
    cases cs with
    | nil => rfl
    | cons c rest =>
      cases isMax with
      | true =>
        exact abLoop_clamp_max st sum (minimax st d) (plainMinimax st d)
          (fun sub ns x y hxy => ih sub ns false x y hxy)
          (c :: rest) ⊥ ⊥ none none ⊤ ⊤ a b a hab
          (lt_of_le_of_lt bot_le hab) (max_eq_left bot_le).symm rfl
      | false =>
        exact abLoop_clamp_min st sum (minimax st d) (plainMinimax st d)
          (fun sub ns x y hxy => ih sub ns true x y hxy)
          (c :: rest) ⊤ ⊤ none none ⊥ ⊥ a b b hab
          (lt_of_lt_of_le hab le_top) (min_eq_left le_top).symm rfl

/-- At the root (full-width window), the pruning loop and the plain loop
agree exactly, best move included: the root's alpha always equals the
running best value `M`, the window `(M, ⊤)` never prunes, and each child's
clamped value forces identical update decisions. -/
theorem abLoop_root_eq (st : ChessAiManager) (sum : Int) (d : Nat) :
    ∀ cs (M : EInt) (bm : Option Move) (m A : EInt), M < ⊤ → A = M →
      abLoop st (minimax st d) true sum cs M bm m A ⊤ =
        plainLoop st (plainMinimax st d) true sum cs M bm m := by
  intro cs
  induction cs with
  | nil => intro M bm m A hM hA; rfl
  | cons c rest ih =>
    obtain ⟨mv, sub⟩ := c
    intro M bm m A hM hA
    rw [hA]
    have hclamp := minimax_clamp st d sub (evaluateBoard st mv sum) false M ⊤ hM
    rw [min_eq_right le_top, min_eq_right le_top] at hclamp
    have hfin := (minimax_bounds st d sub (evaluateBoard st mv sum) false M ⊤).2
    simp only [abLoop, plainLoop, Bool.not_true, eq_self_iff_true, if_true]
    by_cases hv : (minimax st d sub (evaluateBoard st mv sum) false M ⊤).2 > M
    · have hteq : (plainMinimax st d sub (evaluateBoard st mv sum) false).2 =
          (minimax st d sub (evaluateBoard st mv sum) false M ⊤).2 := by
        rw [max_eq_right hv.le] at hclamp
        rcases le_or_lt (plainMinimax st d sub (evaluateBoard st mv sum)
            false).2 M with h | h
        · rw [max_eq_left h] at hclamp
          exact absurd hclamp.symm (ne_of_lt hv)
        · rw [max_eq_right h.le] at hclamp
          exact hclamp.symm
      have ht : M < (plainMinimax st d sub (evaluateBoard st mv sum) false).2 := by
        rw [hteq]; exact hv
      simp only [if_pos hv, if_pos ht]
      have hnb : ¬ (⊤ : EInt) ≤ max M
          (minimax st d sub (evaluateBoard st mv sum) false M ⊤).2 :=
        not_le.mpr (max_lt hM hfin)
      rw [if_neg hnb, max_eq_right hv.le, hteq]
      exact ih _ _ _ _ hfin rfl
    · have hvM := not_lt.mp hv
      have htM : ¬ M < (plainMinimax st d sub (evaluateBoard st mv sum)
          false).2 := by
        intro hcon
        rw [max_eq_left hvM, max_eq_right hcon.le] at hclamp
        exact absurd hclamp (ne_of_lt hcon)
      simp only [if_neg hv, if_neg htM]
      have hnb : ¬ (⊤ : EInt) ≤ max M
          (minimax st d sub (evaluateBoard st mv sum) false M ⊤).2 :=
        not_le.mpr (max_lt hM hfin)
      rw [if_neg hnb, max_eq_left hvM]
      exact ih _ _ _ _ hM rfl

/-- C5: for every position, running score and depth at most 3, the
alpha-beta search called with the full-width window returns exactly the
same best move and the same value as plain minimax without pruning over
the same game tree.  (The proof does not actually need the depth bound.) -/
theorem minimax_alphabeta_eq (st : ChessAiManager) (d : Nat) (t : GameTree)
    (sum : Int) (hd : d ≤ 3) :
    minimax st d t sum true ⊥ ⊤ = plainMinimax st d t sum true := by
  cases d with
  | zero => rfl
  | succ d =>
    obtain ⟨cs⟩ := t
    cases cs with
    | nil => rfl
    | cons c rest =>
      exact abLoop_root_eq st sum d (c :: rest) ⊥ none ⊤ ⊥ EInt_bot_lt_top rfl

/-- Witness for C5 at a concrete position and depth 3. -/
theorem minimax_alphabeta_eq_witness :
    (3 : Nat) ≤ 3 ∧
    minimax st0 3 tW 0 true ⊥ ⊤ = plainMinimax st0 3 tW 0 true :=
  ⟨by decide, minimax_alphabeta_eq st0 3 tW 0 (by decide)⟩
